import Mathlib

/-!
Verification of the CycloneDX dependency-tree logic of `site/app.js`
(`parseCycloneDX`, `buildTree`, `updateTreeStats`, `matchesTreeSearch`,
`exportTree`).

The JavaScript is shallowly embedded: a CycloneDX JSON document is modelled
by structures whose fields are `Option`-valued (a `none` field plays the
role of an absent / `undefined` JSON field, an empty string keeps its
JavaScript falsiness), and the recursive `buildTree` walk is embedded as a
fuel-indexed structurally recursive function.  The fuel only bounds the
recursion depth; `buildTreeFun_fuel_stable` proves that any fuel of at
least `maxDepth + 1 - depth` computes the same result, so the fuel-free
JavaScript recursion is faithfully represented by the fuel value `10` used
in `parseCycloneDX` (the source calls `buildTree(depRef, 1)` with the
default `maxDepth = 10`).
-/

/-- One entry of a CycloneDX `licenses[].license` object. -/
structure LicenseInner where
  name : Option String
  id : Option String
deriving DecidableEq

/-- One entry of a CycloneDX `licenses[]` array. -/
structure LicenseEntry where
  license : Option LicenseInner
deriving DecidableEq

/-- A CycloneDX `components[]` entry, fields as read by `parseCycloneDX`. -/
structure CompJson where
  purl : Option String
  bomRef : Option String
  name : Option String
  version : Option String
  type : Option String
  description : Option String
  licenses : Option (List LicenseEntry)
deriving DecidableEq

/-- A CycloneDX `dependencies[]` entry: `{ref, dependsOn}`. -/
structure DepJson where
  ref : Option String
  dependsOn : Option (List String)
deriving DecidableEq

/-- The `metadata.component` object, fields as read by `parseCycloneDX`. -/
structure MetaComp where
  purl : Option String
  bomRef : Option String
  name : Option String
  version : Option String
deriving DecidableEq

/-- The `metadata` object. -/
structure MetaJson where
  component : Option MetaComp
deriving DecidableEq

/-- A CycloneDX document, restricted to the fields `parseCycloneDX` reads.
An absent `components` / `dependencies` / `metadata` is `none`. -/
structure Sbom where
  components : Option (List CompJson)
  dependencies : Option (List DepJson)
  metadata : Option MetaJson
deriving DecidableEq

/-- JavaScript truthiness of a string-or-undefined value: `undefined` and
`""` are falsy. -/
def jsTruthy : Option String → Bool
  | some s => s ≠ ""
  | none => false

/-- JavaScript `x || y` for string-or-undefined `x` and `y`. -/
def jsOrO : Option String → Option String → Option String
  | some s, y => if s = "" then y else some s
  | none, y => y

/-- JavaScript `x || d` where the fallback `d` is a string literal. -/
def jsOrD : Option String → String → String
  | some s, d => if s = "" then d else s
  | none, d => d

/-- JavaScript string interpolation of a string-or-undefined value:
`undefined` prints as `"undefined"` inside a template literal. -/
def jsShow : Option String → String
  | some s => s
  | none => "undefined"

/-- Identity key of a component: `comp.purl || comp['bom-ref'] || comp.name`
(app.js line 1094). -/
def componentKey (c : CompJson) : Option String :=
  jsOrO c.purl (jsOrO c.bomRef c.name)

/-- The value stored in `componentMap` for a component (app.js lines
1095-1102): version defaults to `"unknown"`, type to `"library"`. -/
structure CompEntry where
  name : Option String
  version : String
  type : String
  purl : Option String
  description : Option String
  licenses : Option (List LicenseEntry)
deriving DecidableEq

/-- Builds the `componentMap` value for one component (app.js 1095-1102). -/
def mkEntry (c : CompJson) : CompEntry :=
  ⟨c.name, jsOrD c.version "unknown", jsOrD c.type "library",
   c.purl, c.description, c.licenses⟩

/-- `componentMap.get(ref)`: the map is filled by iterating `components` in
order with `set`, so the last component whose key equals `ref` wins. -/
def lookupComp (comps : List CompJson) (ref : String) : Option CompEntry :=
  (comps.reverse.find? (fun c => decide (componentKey c = some ref))).map mkEntry

/-- `dependencies.find(d => d.ref === r)`; `undefined === undefined` holds
in JavaScript, which `Option` equality reproduces. -/
def findDep (deps : List DepJson) (r : Option String) : Option DepJson :=
  deps.find? (fun d => decide (d.ref = r))

/-- The `dependsOn` list used to expand `ref`'s children (app.js
1150-1151): absent entry or absent `dependsOn` yields no children. -/
def depsOnOf (deps : List DepJson) (ref : String) : List String :=
  match findDep deps (some ref) with
  | some d => d.dependsOn.getD []
  | none => []

/-- The dependency-tree node of app.js.  Fields in source order of the
object literals at lines 1118-1125, 1138-1148 and 1177-1187. -/
inductive TreeNode where
  | mk (name : Option String) (version : String) (type : String) (depth : Nat)
       (purl : Option String) (description : Option String)
       (licenses : Option (List LicenseEntry)) (children : List TreeNode) (id : String)

def TreeNode.name : TreeNode → Option String
  | .mk n _ _ _ _ _ _ _ _ => n

def TreeNode.version : TreeNode → String
  | .mk _ v _ _ _ _ _ _ _ => v

def TreeNode.type : TreeNode → String
  | .mk _ _ t _ _ _ _ _ _ => t

def TreeNode.depth : TreeNode → Nat
  | .mk _ _ _ d _ _ _ _ _ => d

def TreeNode.description : TreeNode → Option String
  | .mk _ _ _ _ _ d _ _ _ => d

def TreeNode.children : TreeNode → List TreeNode
  | .mk _ _ _ _ _ _ _ c _ => c

def TreeNode.id : TreeNode → String
  | .mk _ _ _ _ _ _ _ _ i => i

/-- Sequential expansion of a `dependsOn` list: each ref is handed to the
recursive builder `f` in order, threading the processed set through, and
only non-null results are pushed (app.js 1152-1157 and 1166-1171). -/
def childLoop (f : String → Nat → Nat → List String → Option TreeNode × List String) :
    List String → Nat → Nat → List String → List TreeNode × List String
  | [], _, _, proc => ([], proc)
  | r :: rs, depth, maxDepth, proc =>
    let p1 := f r depth maxDepth proc
    let p2 := childLoop f rs depth maxDepth p1.2
    (match p1.1 with
     | some n => n :: p2.1
     | none => p2.1, p2.2)

/-- Fuel-indexed embedding of `buildTree(ref, depth, maxDepth)` (app.js
1129-1161) with the `processedRefs` set threaded explicitly.  The body at
positive fuel is the literal translation of the source: reject on
`depth > maxDepth || processedRefs.has(ref)`, then mark processed, then
resolve the component (absent → `null`), then expand `dependsOn` children
at `depth + 1`. -/
def buildTreeFun (comps : List CompJson) (deps : List DepJson) :
    Nat → String → Nat → Nat → List String → Option TreeNode × List String
  | 0 => fun _ _ _ proc => (none, proc)
  | fuel + 1 => fun ref depth maxDepth proc =>
    if depth > maxDepth || proc.contains ref then (none, proc)
    else
      let p1 := ref :: proc
      match lookupComp comps ref with
      | none => (none, p1)
      | some component =>
        let res := childLoop (buildTreeFun comps deps fuel) (depsOnOf deps ref)
          (depth + 1) maxDepth p1
        (some (TreeNode.mk component.name component.version
                 (if depth = 1 then "direct" else "transitive") depth component.purl
                 component.description component.licenses res.1
                 (jsShow component.name ++ "@" ++ component.version ++ "-" ++ toString depth)),
         res.2)

/-- `metadata?.component` of a document. -/
def metaCompOf (sbom : Sbom) : Option MetaComp :=
  sbom.metadata.bind MetaJson.component

/-- `sbom.metadata?.component?.name`. -/
def metaName (sbom : Sbom) : Option String :=
  (metaCompOf sbom).bind MetaComp.name

/-- `sbom.metadata?.component?.version`. -/
def metaVersion (sbom : Sbom) : Option String :=
  (metaCompOf sbom).bind MetaComp.version

/-- Root-reference inference (app.js 1105-1116): prefer the metadata
component's key, else the first dependency's `ref`, else the first
component's key; each fallback fires only when the previous value is
falsy. -/
def rootRefOf (sbom : Sbom) (components : List CompJson)
    (dependencies : List DepJson) : Option String :=
  let r1 := match metaCompOf sbom with
    | some mc => jsOrO mc.purl (jsOrO mc.bomRef mc.name)
    | none => none
  let r2 := if jsTruthy r1 then r1 else
    match dependencies with
    | d :: _ => d.ref
    | [] => r1
  if jsTruthy r2 then r2 else
    match components with
    | c :: _ => componentKey c
    | [] => r2

/-- The children produced by the dependency-graph pass (app.js 1163-1173):
only runs when `dependencies` is non-empty, looks up the root's dependency
entry and expands each `dependsOn` ref at depth 1 with a fresh processed
set. -/
def graphChildren (components : List CompJson) (dependencies : List DepJson)
    (rootRef : Option String) (fuel : Nat) : List TreeNode :=
  match dependencies with
  | [] => []
  | _ :: _ =>
    match findDep dependencies rootRef with
    | some rootDep =>
      match rootDep.dependsOn with
      | some dOn => (childLoop (buildTreeFun components dependencies fuel) dOn 1 10 []).1
      | none => []
    | none => []

/-- One synthesized fallback child (app.js 1177-1187): depth 1, type
`direct`, no children, id `name@version-1-i` with `i` the index. -/
def fallbackNode (i : Nat) (c : CompJson) : TreeNode :=
  TreeNode.mk c.name (jsOrD c.version "unknown") "direct" 1 c.purl c.description
    c.licenses []
    (jsShow c.name ++ "@" ++ jsOrD c.version "unknown" ++ "-1-" ++ toString i)

/-- The fallback children: `components.slice(0, 100).forEach((comp, i) => ...)`
(app.js 1176). -/
def fallbackChildren (components : List CompJson) : List TreeNode :=
  (components.take 100).enum.map (fun p => fallbackNode p.1 p.2)

/-- Fuel-indexed embedding of `parseCycloneDX(sbom, productName, version)`
(app.js 1088-1192). -/
def parseCycloneDXF (fuel : Nat) (sbom : Sbom) (productName version : String) :
    TreeNode :=
  let components := sbom.components.getD []
  let dependencies := sbom.dependencies.getD []
  let rootRef := rootRefOf sbom components dependencies
  let gc := graphChildren components dependencies rootRef fuel
  let children := if gc.isEmpty && !components.isEmpty
    then fallbackChildren components else gc
  TreeNode.mk
    (some (jsOrD (metaName sbom) (if productName = "" then "Root Package" else productName)))
    (jsOrD (metaVersion sbom) version) "root" 0 none none none children "root"

/-- `parseCycloneDX`: the JavaScript recursion needs fuel at most
`maxDepth + 1 - depth = 10` for the depth-1 roots (see
`buildTreeFun_fuel_stable`), so fuel 10 is the exact semantics. -/
def parseCycloneDX (sbom : Sbom) (productName version : String) : TreeNode :=
  parseCycloneDXF 10 sbom productName version

/-- Scenario of spec §8: one component `a@1.0` with purl `pkg:a`, root
`root` depending on it, yields exactly one direct child `a@1.0`. -/
theorem spec_scenario_single_child :
    ((parseCycloneDX
        ⟨some [⟨some "pkg:a", none, some "a", some "1.0", none, none, none⟩],
         some [⟨some "root", some ["pkg:a"]⟩],
         some ⟨some ⟨some "root", none, none, none⟩⟩⟩ "p" "v").children.map
      (fun n => (n.name, n.version, n.type, n.depth, n.children.length))) =
    [(some "a", "1.0", "direct", 1, 0)] := by decide

/-- Scenario of spec §8: a 2-cycle `x → y → x` below the root is broken at
the re-visitation of `x`; `y` gets zero children. -/
theorem spec_scenario_cycle :
    ((parseCycloneDX
        ⟨some [⟨some "x", none, some "x", some "1.0", none, none, none⟩,
               ⟨some "y", none, some "y", some "2.0", none, none, none⟩],
         some [⟨some "r", some ["x"]⟩, ⟨some "x", some ["y"]⟩, ⟨some "y", some ["x"]⟩],
         some ⟨some ⟨some "r", none, none, none⟩⟩⟩ "p" "v").children.map
      (fun n => (n.name, n.depth, n.children.map (fun m => (m.name, m.depth, m.children.length))))) =
    [(some "x", 1, [(some "y", 2, 0)])] := by decide

/-! ## Fuel adequacy: the recursion of `buildTree` is bounded by the depth cap -/

theorem childLoop_congr (f g : String → Nat → Nat → List String → Option TreeNode × List String)
    (depth maxDepth : Nat) (h : ∀ r p, f r depth maxDepth p = g r depth maxDepth p) :
    ∀ (rs : List String) (proc : List String),
      childLoop f rs depth maxDepth proc = childLoop g rs depth maxDepth proc := by
  intro rs
  induction rs with
  | nil => intro proc; rfl
  | cons r rs ih =>
    intro proc
    simp only [childLoop, h, ih]

/-- One-step unfolding of `buildTreeFun` at positive fuel. -/
theorem buildTreeFun_succ (comps : List CompJson) (deps : List DepJson)
    (fuel : Nat) (ref : String) (depth maxDepth : Nat) (proc : List String) :
    buildTreeFun comps deps (fuel + 1) ref depth maxDepth proc =
      if depth > maxDepth || proc.contains ref then (none, proc)
      else
        match lookupComp comps ref with
        | none => (none, ref :: proc)
        | some component =>
          (some (TreeNode.mk component.name component.version
                   (if depth = 1 then "direct" else "transitive") depth component.purl
                   component.description component.licenses
                   (childLoop (buildTreeFun comps deps fuel) (depsOnOf deps ref)
                     (depth + 1) maxDepth (ref :: proc)).1
                   (jsShow component.name ++ "@" ++ component.version ++ "-" ++ toString depth)),
           (childLoop (buildTreeFun comps deps fuel) (depsOnOf deps ref)
             (depth + 1) maxDepth (ref :: proc)).2) := rfl

theorem buildTreeFun_fuel_stable (comps : List CompJson) (deps : List DepJson)
    (maxDepth : Nat) :
    ∀ (fuel depth : Nat), maxDepth + 1 - depth ≤ fuel → ∀ (ref : String) (proc : List String),
      buildTreeFun comps deps (fuel + 1) ref depth maxDepth proc =
      buildTreeFun comps deps fuel ref depth maxDepth proc := by
  intro fuel
  induction fuel with
  | zero =>
    intro depth hb ref proc
    have hd : depth > maxDepth := by omega
    rw [buildTreeFun_succ, if_pos (by simp [hd])]
    rfl
  | succ fuel ih =>
    intro depth hb ref proc
    rw [buildTreeFun_succ, buildTreeFun_succ]
    by_cases hg : (decide (depth > maxDepth) || proc.contains ref) = true
    · rw [if_pos hg, if_pos hg]
    · have hd : ¬ depth > maxDepth := by
        intro hc
        simp [hc] at hg
      have hcl := childLoop_congr
        (buildTreeFun comps deps (fuel + 1)) (buildTreeFun comps deps fuel)
        (depth + 1) maxDepth
        (fun r p => ih (depth + 1) (by omega) r p)
        (depsOnOf deps ref) (ref :: proc)
      rw [if_neg hg, if_neg hg]
      cases lookupComp comps ref with
      | none => rfl
      | some component => rw [hcl]

theorem buildTreeFun_fuel_ge (comps : List CompJson) (deps : List DepJson)
    (maxDepth : Nat) :
    ∀ (k fuel depth : Nat), maxDepth + 1 - depth ≤ fuel →
      ∀ (ref : String) (proc : List String),
      buildTreeFun comps deps (fuel + k) ref depth maxDepth proc =
      buildTreeFun comps deps fuel ref depth maxDepth proc := by
  intro k
  induction k with
  | zero => intro fuel depth _ ref proc; rfl
  | succ k ih =>
    intro fuel depth hb ref proc
    have h1 : fuel + (k + 1) = (fuel + k) + 1 := by omega
    rw [h1, buildTreeFun_fuel_stable comps deps maxDepth (fuel + k) depth (by omega),
        ih fuel depth hb]

theorem graphChildren_fuel_stable (components : List CompJson)
    (dependencies : List DepJson) (rootRef : Option String) :
    ∀ (fuel : Nat), 10 ≤ fuel →
      graphChildren components dependencies rootRef fuel =
      graphChildren components dependencies rootRef 10 := by
  intro fuel hf
  have hpt : ∀ (r : String) (p : List String),
      buildTreeFun components dependencies fuel r 1 10 p =
      buildTreeFun components dependencies 10 r 1 10 p := by
    intro r p
    have h1 : fuel = 10 + (fuel - 10) := by omega
    rw [h1, buildTreeFun_fuel_ge components dependencies 10 (fuel - 10) 10 1 (by omega)]
  cases dependencies with
  | nil => rfl
  | cons d ds =>
    simp only [graphChildren]
    cases findDep (d :: ds) rootRef with
    | none => rfl
    | some rootDep =>
      dsimp only
      cases rootDep.dependsOn with
      | none => rfl
      | some dOn =>
        dsimp only
        rw [childLoop_congr _ _ 1 10 hpt dOn []]

/-- C2: for every CycloneDX document, `build` terminates regardless of
cycles in `dependencies[]`: the recursion is depth-capped, so any fuel of
at least 10 (the cap reached from depth 1) computes the same tree as the
canonical embedding `parseCycloneDX`; no input drives the recursion
deeper. -/
theorem parseCycloneDX_terminates :
    ∀ (sbom : Sbom) (productName version : String) (fuel : Nat), 10 ≤ fuel →
      parseCycloneDXF fuel sbom productName version =
      parseCycloneDX sbom productName version := by
  intro sbom productName version fuel hf
  simp only [parseCycloneDX, parseCycloneDXF,
    graphChildren_fuel_stable _ _ _ fuel hf]

/-- A document whose `dependencies[]` form a cycle `x → y → x`. -/
def sbomCyc : Sbom :=
  ⟨some [⟨some "x", none, some "x", some "1.0", none, none, none⟩,
         ⟨some "y", none, some "y", some "2.0", none, none, none⟩],
   some [⟨some "r", some ["x"]⟩, ⟨some "x", some ["y"]⟩, ⟨some "y", some ["x"]⟩],
   some ⟨some ⟨some "r", none, none, none⟩⟩⟩

theorem parseCycloneDX_terminates_witness :
    10 ≤ 42 ∧ parseCycloneDXF 42 sbomCyc "p" "v" = parseCycloneDX sbomCyc "p" "v" :=
  ⟨by decide, parseCycloneDX_terminates sbomCyc "p" "v" 42 (by decide)⟩

/-! ## C1: totality and defaults of `parseCycloneDX` -/

theorem buildTreeFun_fst_none_of_nilComps (deps : List DepJson)
    (fuel : Nat) (ref : String) (depth maxDepth : Nat) (proc : List String) :
    (buildTreeFun [] deps fuel ref depth maxDepth proc).1 = none := by
  cases fuel with
  | zero => rfl
  | succ fuel =>
    rw [buildTreeFun_succ]
    by_cases hg : (decide (depth > maxDepth) || proc.contains ref) = true
    · rw [if_pos hg]
    · rw [if_neg hg]
      rfl

theorem childLoop_fst_nil (f : String → Nat → Nat → List String → Option TreeNode × List String)
    (depth maxDepth : Nat) (h : ∀ r p, (f r depth maxDepth p).1 = none) :
    ∀ (rs : List String) (proc : List String),
      (childLoop f rs depth maxDepth proc).1 = [] := by
  intro rs
  induction rs with
  | nil => intro proc; rfl
  | cons r rs ih =>
    intro proc
    simp only [childLoop]
    rw [h r proc]
    exact ih _

theorem graphChildren_nilComps (deps : List DepJson) (rootRef : Option String)
    (fuel : Nat) : graphChildren [] deps rootRef fuel = [] := by
  cases deps with
  | nil => rfl
  | cons d ds =>
    simp only [graphChildren]
    cases findDep (d :: ds) rootRef with
    | none => rfl
    | some rootDep =>
      dsimp only
      cases rootDep.dependsOn with
      | none => rfl
      | some dOn =>
        dsimp only
        exact childLoop_fst_nil _ 1 10
          (fun r p => buildTreeFun_fst_none_of_nilComps (d :: ds) fuel r 1 10 p) dOn []

/-- C1: `parseCycloneDX` is total on every document shape: a missing
`components`, `dependencies` or `metadata.component` behaves exactly like
an empty one, a missing component version defaults to `"unknown"` (both in
the component map and in the fallback children), a missing type defaults
to `"library"`, and a document with no resolvable component yields a root
node with an empty `children` list (never an error value); the result is
always a root node of type `"root"` at depth 0. -/
theorem parseCycloneDX_total_defaults :
    (∀ (deps : Option (List DepJson)) (meta : Option MetaJson) (productName version : String),
       parseCycloneDX ⟨none, deps, meta⟩ productName version =
       parseCycloneDX ⟨some [], deps, meta⟩ productName version) ∧
    (∀ (comps : Option (List CompJson)) (meta : Option MetaJson) (productName version : String),
       parseCycloneDX ⟨comps, none, meta⟩ productName version =
       parseCycloneDX ⟨comps, some [], meta⟩ productName version) ∧
    (∀ (comps : Option (List CompJson)) (deps : Option (List DepJson)) (productName version : String),
       parseCycloneDX ⟨comps, deps, none⟩ productName version =
       parseCycloneDX ⟨comps, deps, some ⟨none⟩⟩ productName version) ∧
    (∀ (p b n ty d : Option String) (l : Option (List LicenseEntry)),
       (mkEntry ⟨p, b, n, none, ty, d, l⟩).version = "unknown") ∧
    (∀ (p b n v d : Option String) (l : Option (List LicenseEntry)),
       (mkEntry ⟨p, b, n, v, none, d, l⟩).type = "library") ∧
    (∀ (i : Nat) (p b n ty d : Option String) (l : Option (List LicenseEntry)),
       (fallbackNode i ⟨p, b, n, none, ty, d, l⟩).version = "unknown") ∧
    (∀ (deps : Option (List DepJson)) (meta : Option MetaJson) (productName version : String),
       (parseCycloneDX ⟨some [], deps, meta⟩ productName version).children = []) ∧
    (∀ (sbom : Sbom) (productName version : String),
       (parseCycloneDX sbom productName version).type = "root" ∧
       (parseCycloneDX sbom productName version).depth = 0 ∧
       (parseCycloneDX sbom productName version).id = "root") := by
  refine ⟨fun deps meta pn v => rfl, fun comps meta pn v => rfl, fun comps deps pn v => rfl,
    fun p b n ty d l => rfl, fun p b n v d l => rfl, fun i p b n ty d l => rfl,
    fun deps meta pn v => ?_, fun sbom pn v => ⟨rfl, rfl, rfl⟩⟩
  simp only [parseCycloneDX, parseCycloneDXF, Option.getD_some,
    graphChildren_nilComps, TreeNode.children]
  rfl

/-! ## Counting nodes: `updateTreeStats` (app.js 1198-1219) -/

mutual
/-- Number of nodes of a subtree, the subtree's own root included. -/
def nodeTotal : TreeNode → Nat
  | .mk _ _ _ _ _ _ _ children _ => 1 + listTotal children
/-- Number of nodes of a forest. -/
def listTotal : List TreeNode → Nat
  | [] => 0
  | n :: ns => nodeTotal n + listTotal ns
end

mutual
/-- Number of nodes of a subtree whose `type` field equals `k`. -/
def kindCountN (k : String) : TreeNode → Nat
  | .mk _ _ ty _ _ _ _ children _ => (if ty = k then 1 else 0) + kindCountL k children
/-- Number of nodes of a forest whose `type` field equals `k`. -/
def kindCountL (k : String) : List TreeNode → Nat
  | [] => 0
  | n :: ns => kindCountN k n + kindCountL k ns
end

mutual
/-- The `countNodes` closure of `updateTreeStats` (app.js 1203-1210): one
traversal incrementing the `(total, direct, transitive)` counters. -/
def countNodes : TreeNode → Nat × Nat × Nat → Nat × Nat × Nat
  | .mk _ _ ty _ _ _ _ children _, acc =>
    countList children
      (acc.1 + 1,
       (if ty = "direct" then acc.2.1 + 1 else acc.2.1),
       (if ty = "transitive" then acc.2.2 + 1 else acc.2.2))
/-- `node.children.forEach(countNodes)`. -/
def countList : List TreeNode → Nat × Nat × Nat → Nat × Nat × Nat
  | [], acc => acc
  | n :: ns, acc => countList ns (countNodes n acc)
end

/-- `updateTreeStats` (app.js 1198-1219), restricted to the counters it
computes: the walk starts from `tree.children`, so the root itself is
never counted. -/
def updateTreeStats (tree : TreeNode) : Nat × Nat × Nat :=
  countList tree.children (0, 0, 0)

theorem countList_eq : ∀ (l : List TreeNode) (acc : Nat × Nat × Nat),
    countList l acc =
      (acc.1 + listTotal l, acc.2.1 + kindCountL "direct" l,
       acc.2.2 + kindCountL "transitive" l) :=
  listTotal.induct
    (fun t => ∀ acc : Nat × Nat × Nat, countNodes t acc =
      (acc.1 + nodeTotal t, acc.2.1 + kindCountN "direct" t,
       acc.2.2 + kindCountN "transitive" t))
    (fun l => ∀ acc : Nat × Nat × Nat, countList l acc =
      (acc.1 + listTotal l, acc.2.1 + kindCountL "direct" l,
       acc.2.2 + kindCountL "transitive" l))
    (by
      intro name version ty depth purl description licenses children id ih acc
      simp only [countNodes, nodeTotal, kindCountN, ih]
      by_cases h1 : ty = "direct" <;> by_cases h2 : ty = "transitive" <;>
        simp [h1, h2, Prod.ext_iff] <;> omega)
    (by intro acc; simp [countList, listTotal, kindCountL])
    (by
      intro n ns ih1 ih2 acc
      simp only [countList, listTotal, kindCountL, ih1, ih2, Prod.mk.injEq]
      refine ⟨by omega, by omega, by omega⟩)

theorem updateTreeStats_eq (t : TreeNode) :
    updateTreeStats t =
      (listTotal t.children, kindCountL "direct" t.children,
       kindCountL "transitive" t.children) := by
  simp [updateTreeStats, countList_eq]

mutual
/-- Every node of the subtree has `type` `"direct"` or `"transitive"`. -/
def kindsOkN : TreeNode → Bool
  | .mk _ _ ty _ _ _ _ children _ =>
    (ty == "direct" || ty == "transitive") && kindsOkL children
/-- Every node of the forest has `type` `"direct"` or `"transitive"`. -/
def kindsOkL : List TreeNode → Bool
  | [] => true
  | n :: ns => kindsOkN n && kindsOkL ns
end

theorem kindsOkL_of_forall : ∀ (l : List TreeNode),
    (∀ n ∈ l, kindsOkN n = true) → kindsOkL l = true := by
  intro l
  induction l with
  | nil => intro _; rfl
  | cons n ns ih =>
    intro h
    simp only [kindsOkL, Bool.and_eq_true]
    exact ⟨h n (List.mem_cons_self n ns), ih (fun m hm => h m (List.mem_cons_of_mem n hm))⟩

theorem listTotal_eq_kinds : ∀ (l : List TreeNode), kindsOkL l = true →
    listTotal l = kindCountL "direct" l + kindCountL "transitive" l :=
  listTotal.induct
    (fun t => kindsOkN t = true →
      nodeTotal t = kindCountN "direct" t + kindCountN "transitive" t)
    (fun l => kindsOkL l = true →
      listTotal l = kindCountL "direct" l + kindCountL "transitive" l)
    (by
      intro name version ty depth purl description licenses children id ih h
      simp only [kindsOkN, Bool.and_eq_true, Bool.or_eq_true, beq_iff_eq] at h
      obtain ⟨hty, hch⟩ := h
      simp only [nodeTotal, kindCountN, ih hch]
      rcases hty with h1 | h1 <;> subst h1 <;> simp <;> omega)
    (by intro _; rfl)
    (by
      intro n ns ih1 ih2 h
      simp only [kindsOkL, Bool.and_eq_true] at h
      simp only [listTotal, kindCountL, ih1 h.1, ih2 h.2]
      omega)

theorem childLoop_forall
    (f : String → Nat → Nat → List String → Option TreeNode × List String)
    (depth maxDepth : Nat) (Q : TreeNode → Prop)
    (h : ∀ r p n p2, f r depth maxDepth p = (some n, p2) → Q n) :
    ∀ (rs : List String) (proc : List String) (n : TreeNode),
      n ∈ (childLoop f rs depth maxDepth proc).1 → Q n := by
  intro rs
  induction rs with
  | nil => intro proc n hn; simp [childLoop] at hn
  | cons r rs ih =>
    intro proc n hn
    simp only [childLoop] at hn
    cases hf : f r depth maxDepth proc with
    | mk nOpt p2 =>
      rw [hf] at hn
      cases nOpt with
      | some m =>
        rcases List.mem_cons.mp hn with h1 | h2
        · rw [h1]; exact h r proc m p2 hf
        · exact ih _ n h2
      | none => exact ih _ n hn

theorem graphChildren_forall (comps : List CompJson) (deps : List DepJson)
    (rootRef : Option String) (fuel : Nat) (Q : TreeNode → Prop)
    (h : ∀ r p n p2, buildTreeFun comps deps fuel r 1 10 p = (some n, p2) → Q n) :
    ∀ n ∈ graphChildren comps deps rootRef fuel, Q n := by
  cases deps with
  | nil => intro n hn; simp [graphChildren] at hn
  | cons d ds =>
    simp only [graphChildren]
    cases findDep (d :: ds) rootRef with
    | none => intro n hn; simp at hn
    | some rootDep =>
      dsimp only
      cases rootDep.dependsOn with
      | none => intro n hn; simp at hn
      | some dOn =>
        dsimp only
        exact fun n hn => childLoop_forall _ 1 10 Q h dOn [] n hn

theorem buildTreeFun_kindsOk (comps : List CompJson) (deps : List DepJson)
    (maxDepth : Nat) :
    ∀ (fuel depth : Nat), 1 ≤ depth →
      ∀ (ref : String) (proc : List String) (n : TreeNode) (p2 : List String),
      buildTreeFun comps deps fuel ref depth maxDepth proc = (some n, p2) →
      kindsOkN n = true := by
  intro fuel
  induction fuel with
  | zero =>
    intro depth hd ref proc n p2 h
    simp [buildTreeFun] at h
  | succ fuel ih =>
    intro depth hd ref proc n p2 h
    rw [buildTreeFun_succ] at h
    by_cases hg : (decide (depth > maxDepth) || proc.contains ref) = true
    · rw [if_pos hg] at h
      simp at h
    · rw [if_neg hg] at h
      cases hlk : lookupComp comps ref with
      | none => rw [hlk] at h; simp at h
      | some component =>
        rw [hlk] at h
        dsimp only at h
        rw [Prod.mk.injEq] at h
        obtain ⟨h1, _⟩ := h
        have h2 := Option.some.inj h1
        subst h2
        simp only [kindsOkN, Bool.and_eq_true]
        constructor
        · by_cases h1 : depth = 1 <;> simp [h1]
        · exact kindsOkL_of_forall _
            (childLoop_forall _ (depth + 1) maxDepth _
              (fun r p m q2 hm => ih (depth + 1) (by omega) r p m q2 hm)
              (depsOnOf deps ref) (ref :: proc))

theorem kindsOkL_fallback (comps : List CompJson) :
    kindsOkL (fallbackChildren comps) = true := by
  apply kindsOkL_of_forall
  intro n hn
  simp only [fallbackChildren, List.mem_map] at hn
  obtain ⟨p, _, hp⟩ := hn
  rw [← hp]
  simp [fallbackNode, kindsOkN, kindsOkL]

theorem parse_children_kindsOk (sbom : Sbom) (productName version : String) :
    kindsOkL (parseCycloneDX sbom productName version).children = true := by
  simp only [parseCycloneDX, parseCycloneDXF, TreeNode.children]
  split
  · exact kindsOkL_fallback _
  · apply kindsOkL_of_forall
    exact graphChildren_forall _ _ _ _ _
      (fun r p n p2 h => buildTreeFun_kindsOk _ _ 10 10 1 (by omega) r p n p2 h)

/-- C7: `updateTreeStats` counts exactly the nodes below `root.children`
(the root itself excluded); on every built tree `total` equals
`direct + transitive`, and the `direct` / `transitive` counters are exactly
the number of counted nodes with that `type`. -/
theorem updateTreeStats_correct :
    ∀ (sbom : Sbom) (productName version : String),
      updateTreeStats (parseCycloneDX sbom productName version) =
        (listTotal (parseCycloneDX sbom productName version).children,
         kindCountL "direct" (parseCycloneDX sbom productName version).children,
         kindCountL "transitive" (parseCycloneDX sbom productName version).children) ∧
      (updateTreeStats (parseCycloneDX sbom productName version)).1 =
        (updateTreeStats (parseCycloneDX sbom productName version)).2.1 +
        (updateTreeStats (parseCycloneDX sbom productName version)).2.2 := by
  intro sbom productName version
  refine ⟨updateTreeStats_eq _, ?_⟩
  rw [updateTreeStats_eq]
  exact listTotal_eq_kinds _ (parse_children_kindsOk sbom productName version)

/-! ## C3: depth and kind invariants of built trees -/

mutual
/-- Checks, for a subtree whose root sits `d` edges below the tree root,
that every node's `depth` field equals its edge distance from the root,
that no depth exceeds `cap`, and that the `type` field is `"root"` exactly
at distance 0, `"direct"` exactly at distance 1 and `"transitive"` exactly
at distance ≥ 2. -/
def depthsOkN (cap : Nat) : Nat → TreeNode → Bool
  | d, .mk _ _ ty dp _ _ _ children _ =>
    decide (dp = d) && decide (dp ≤ cap) &&
    ((ty == "root") == decide (d = 0)) &&
    ((ty == "direct") == decide (d = 1)) &&
    ((ty == "transitive") == decide (2 ≤ d)) &&
    depthsOkL cap (d + 1) children
/-- Forest version of `depthsOkN`, all roots at distance `d`. -/
def depthsOkL (cap : Nat) : Nat → List TreeNode → Bool
  | _, [] => true
  | d, n :: ns => depthsOkN cap d n && depthsOkL cap d ns
end

theorem depthsOkL_of_forall (cap d : Nat) : ∀ (l : List TreeNode),
    (∀ n ∈ l, depthsOkN cap d n = true) → depthsOkL cap d l = true := by
  intro l
  induction l with
  | nil => intro _; rfl
  | cons n ns ih =>
    intro h
    simp only [depthsOkL, Bool.and_eq_true]
    exact ⟨h n (List.mem_cons_self n ns), ih (fun m hm => h m (List.mem_cons_of_mem n hm))⟩

theorem buildTreeFun_depthsOk (comps : List CompJson) (deps : List DepJson)
    (maxDepth : Nat) :
    ∀ (fuel depth : Nat), 1 ≤ depth →
      ∀ (ref : String) (proc : List String) (n : TreeNode) (p2 : List String),
      buildTreeFun comps deps fuel ref depth maxDepth proc = (some n, p2) →
      depthsOkN maxDepth depth n = true := by
  intro fuel
  induction fuel with
  | zero =>
    intro depth hd ref proc n p2 h
    simp [buildTreeFun] at h
  | succ fuel ih =>
    intro depth hd ref proc n p2 h
    rw [buildTreeFun_succ] at h
    by_cases hg : (decide (depth > maxDepth) || proc.contains ref) = true
    · rw [if_pos hg] at h
      simp at h
    · rw [if_neg hg] at h
      cases hlk : lookupComp comps ref with
      | none => rw [hlk] at h; simp at h
      | some component =>
        rw [hlk] at h
        dsimp only at h
        rw [Prod.mk.injEq] at h
        obtain ⟨h1, _⟩ := h
        have h2 := Option.some.inj h1
        subst h2
        have hle : depth ≤ maxDepth := by
          by_contra hc
          exact hg (by simp [show depth > maxDepth from by omega])
        have hch : depthsOkL maxDepth (depth + 1)
            (childLoop (buildTreeFun comps deps fuel) (depsOnOf deps ref)
              (depth + 1) maxDepth (ref :: proc)).1 = true :=
          depthsOkL_of_forall _ _ _
            (childLoop_forall _ (depth + 1) maxDepth _
              (fun r p m q2 hm => ih (depth + 1) (by omega) r p m q2 hm)
              (depsOnOf deps ref) (ref :: proc))
        have h0 : depth ≠ 0 := by omega
        by_cases hd1 : depth = 1
        · subst hd1
          simp [depthsOkN, hch, hle]
        · have hd2 : 2 ≤ depth := by omega
          simp [depthsOkN, hch, hle, hd1, h0, hd2]

theorem depthsOkL_fallback (comps : List CompJson) :
    depthsOkL 10 1 (fallbackChildren comps) = true := by
  apply depthsOkL_of_forall
  intro n hn
  simp only [fallbackChildren, List.mem_map] at hn
  obtain ⟨p, _, hp⟩ := hn
  rw [← hp]
  simp [fallbackNode, depthsOkN, depthsOkL]

/-- C3: in every built tree, each node's `depth` field equals its edge
distance from the root, no node exceeds the default cap 10, and the node
kind is determined by depth alone: `"root"` exactly at depth 0, `"direct"`
exactly at depth 1, `"transitive"` exactly at depth ≥ 2. -/
theorem parseCycloneDX_depth_kind :
    ∀ (sbom : Sbom) (productName version : String),
      depthsOkN 10 0 (parseCycloneDX sbom productName version) = true := by
  intro sbom productName version
  simp only [parseCycloneDX, parseCycloneDXF]
  simp only [depthsOkN, Bool.and_eq_true]
  refine ⟨by simp, ?_⟩
  split
  · exact depthsOkL_fallback _
  · apply depthsOkL_of_forall
    exact graphChildren_forall _ _ _ _ _
      (fun r p n p2 h => buildTreeFun_depthsOk _ _ 10 10 1 (by omega) r p n p2 h)

/-! ## C9: the id scheme of built nodes -/

/-- Id of a node built by the dependency-graph expansion (app.js 1147):
`` `${component.name}@${component.version}-${depth}` ``. -/
def graphId (name : Option String) (version : String) (d : Nat) : String :=
  jsShow name ++ "@" ++ version ++ "-" ++ toString d

/-- Id of a fallback child (app.js 1186):
`` `${comp.name}@${comp.version || 'unknown'}-1-${i}` `` — note the extra
index suffix. -/
def fallbackId (i : Nat) (c : CompJson) : String :=
  jsShow c.name ++ "@" ++ jsOrD c.version "unknown" ++ "-1-" ++ toString i

mutual
/-- Every node of a graph-built subtree rooted `d` edges below the root
carries the id `name@version-d`. -/
def idsOkN : Nat → TreeNode → Bool
  | d, .mk name version _ _ _ _ _ children id =>
    (id == graphId name version d) && idsOkL (d + 1) children
/-- Forest version of `idsOkN`. -/
def idsOkL : Nat → List TreeNode → Bool
  | _, [] => true
  | d, n :: ns => idsOkN d n && idsOkL d ns
end

theorem idsOkL_of_forall (d : Nat) : ∀ (l : List TreeNode),
    (∀ n ∈ l, idsOkN d n = true) → idsOkL d l = true := by
  intro l
  induction l with
  | nil => intro _; rfl
  | cons n ns ih =>
    intro h
    simp only [idsOkL, Bool.and_eq_true]
    exact ⟨h n (List.mem_cons_self n ns), ih (fun m hm => h m (List.mem_cons_of_mem n hm))⟩

theorem buildTreeFun_idsOk (comps : List CompJson) (deps : List DepJson)
    (maxDepth : Nat) :
    ∀ (fuel depth : Nat),
      ∀ (ref : String) (proc : List String) (n : TreeNode) (p2 : List String),
      buildTreeFun comps deps fuel ref depth maxDepth proc = (some n, p2) →
      idsOkN depth n = true := by
  intro fuel
  induction fuel with
  | zero =>
    intro depth ref proc n p2 h
    simp [buildTreeFun] at h
  | succ fuel ih =>
    intro depth ref proc n p2 h
    rw [buildTreeFun_succ] at h
    by_cases hg : (decide (depth > maxDepth) || proc.contains ref) = true
    · rw [if_pos hg] at h
      simp at h
    · rw [if_neg hg] at h
      cases hlk : lookupComp comps ref with
      | none => rw [hlk] at h; simp at h
      | some component =>
        rw [hlk] at h
        dsimp only at h
        rw [Prod.mk.injEq] at h
        obtain ⟨h1, _⟩ := h
        have h2 := Option.some.inj h1
        subst h2
        simp only [idsOkN, graphId, beq_self_eq_true, Bool.true_and]
        exact idsOkL_of_forall _ _
          (childLoop_forall _ (depth + 1) maxDepth _
            (fun r p m q2 hm => ih (depth + 1) r p m q2 hm)
            (depsOnOf deps ref) (ref :: proc))

/-- A flat document: one component, no dependency section at all. -/
def compsFlat : List CompJson :=
  [⟨some "a", none, some "a", some "1.0", none, none, none⟩]

/-- A flat document with a single component and no `dependencies`. -/
def sbomFlat : Sbom := ⟨some compsFlat, none, none⟩

/-- C9 counterexample: on a flat document the (fallback) child of the
built tree has id `"a@1.0-1-0"` — with the component's index appended —
although its name is `"a"`, its version `"1.0"` and its depth `1`, so the
claimed scheme `name@version-depth` (which would give `"a@1.0-1"`) does
not hold for every non-root node. -/
theorem parseCycloneDX_id_scheme_cex :
    ((parseCycloneDX sbomFlat "p" "v").children.map
      (fun n => (n.name, n.version, n.depth, n.id))) =
      [(some "a", "1.0", 1, "a@1.0-1-0")] ∧
    graphId (some "a") "1.0" 1 = "a@1.0-1" ∧ "a@1.0-1-0" ≠ "a@1.0-1" := by decide

/-- C9 (amended): the synthetic root's id is the literal `"root"`; every
node created by the dependency-graph expansion at depth `d` has id
`name@version-d` (so graph nodes agreeing on name, version and depth share
their id); fallback children instead get `name@version-1-i` with `i` the
component index; and the children of a built tree come entirely from one
of those two builders. -/
theorem parseCycloneDX_id_scheme :
    (∀ (sbom : Sbom) (productName version : String),
       (parseCycloneDX sbom productName version).id = "root") ∧
    (∀ (comps : List CompJson) (deps : List DepJson) (rootRef : Option String)
       (fuel : Nat), ∀ n ∈ graphChildren comps deps rootRef fuel, idsOkN 1 n = true) ∧
    (∀ (comps : List CompJson),
       (fallbackChildren comps).map TreeNode.id =
         (comps.take 100).enum.map (fun p => fallbackId p.1 p.2)) ∧
    (∀ (sbom : Sbom) (productName version : String),
       (parseCycloneDX sbom productName version).children =
         graphChildren (sbom.components.getD []) (sbom.dependencies.getD [])
           (rootRefOf sbom (sbom.components.getD []) (sbom.dependencies.getD [])) 10 ∨
       (parseCycloneDX sbom productName version).children =
         fallbackChildren (sbom.components.getD [])) := by
  refine ⟨fun sbom pn v => rfl, ?_, ?_, ?_⟩
  · intro comps deps rootRef fuel
    exact graphChildren_forall _ _ _ _ _
      (fun r p n p2 h => buildTreeFun_idsOk comps deps 10 fuel 1 r p n p2 h)
  · intro comps
    simp only [fallbackChildren, List.map_map]
    apply List.map_congr_left
    intro p _
    rfl
  · intro sbom productName version
    simp only [parseCycloneDX, parseCycloneDXF, TreeNode.children]
    split
    · right; rfl
    · left; rfl

theorem parseCycloneDX_id_scheme_witness :
    idsOkN 1 (TreeNode.mk (some "x") "1.0" "direct" 1 (some "x") none none
      [TreeNode.mk (some "y") "2.0" "transitive" 2 (some "y") none none [] "y@2.0-2"]
      "x@1.0-1") = true := by
  have hg : graphChildren
      [⟨some "x", none, some "x", some "1.0", none, none, none⟩,
       ⟨some "y", none, some "y", some "2.0", none, none, none⟩]
      [⟨some "r", some ["x"]⟩, ⟨some "x", some ["y"]⟩, ⟨some "y", some ["x"]⟩]
      (some "r") 10 =
      [TreeNode.mk (some "x") "1.0" "direct" 1 (some "x") none none
        [TreeNode.mk (some "y") "2.0" "transitive" 2 (some "y") none none [] "y@2.0-2"]
        "x@1.0-1"] := rfl
  exact parseCycloneDX_id_scheme.2.1 _ _ (some "r") 10 _ (hg ▸ List.mem_singleton.mpr rfl)

/-! ## C6: `exportTree` (app.js 1557-1575) -/

mutual
/-- The `exportNode` closure of `exportTree` (app.js 1560-1573): emits
`prefix + connector + name (+ @version) + newline`, then the children with
the extended prefix; reads nothing but the tree (neither the expanded-node
set nor the search query). -/
def exportNode : TreeNode → String → Bool → String
  | .mk name version _ _ _ _ _ children _, pre, isLast =>
    pre ++ (if isLast then "└── " else "├── ") ++ jsShow name ++
      (if version ≠ "" then "@" ++ version else "") ++ "\n" ++
      exportList children (pre ++ (if isLast then "    " else "│   "))
/-- `node.children.forEach((child, i) => exportNode(child, ..., i === last))`. -/
def exportList : List TreeNode → String → String
  | [], _ => ""
  | [c], pre => exportNode c pre true
  | c :: c2 :: cs, pre => exportNode c pre false ++ exportList (c2 :: cs) pre
end

/-- The full text accumulated by `exportTree`: `exportNode(treeData)` with
default `prefix = ''` and `isLast = true` — the synthetic root included. -/
def exportTreeText (t : TreeNode) : String := exportNode t "" true

mutual
/-- The lines (without their trailing newline) emitted by `exportNode`,
in emission order. -/
def exportLinesN : TreeNode → String → Bool → List String
  | .mk name version _ _ _ _ _ children _, pre, isLast =>
    (pre ++ (if isLast then "└── " else "├── ") ++ jsShow name ++
      (if version ≠ "" then "@" ++ version else "")) ::
    exportLinesL children (pre ++ (if isLast then "    " else "│   "))
/-- Forest version of `exportLinesN`. -/
def exportLinesL : List TreeNode → String → List String
  | [], _ => []
  | [c], pre => exportLinesN c pre true
  | c :: c2 :: cs, pre => exportLinesN c pre false ++ exportLinesL (c2 :: cs) pre
end

/-- Concatenates lines, terminating each with a newline. -/
def joinLines (l : List String) : String :=
  l.foldr (fun s acc => s ++ "\n" ++ acc) ""

theorem joinLines_append (l1 l2 : List String) :
    joinLines (l1 ++ l2) = joinLines l1 ++ joinLines l2 := by
  induction l1 with
  | nil => simp [joinLines]
  | cons s l1 ih =>
    simp only [joinLines, List.foldr_cons, List.cons_append] at *
    rw [ih]
    simp [String.append_assoc]

theorem exportList_join : ∀ (l : List TreeNode) (pre : String),
    exportList l pre = joinLines (exportLinesL l pre) :=
  exportLinesL.induct
    (fun t pre isLast => exportNode t pre isLast = joinLines (exportLinesN t pre isLast))
    (fun l pre => exportList l pre = joinLines (exportLinesL l pre))
    (by
      intro name version ty depth purl description licenses children id pre isLast ih
      simp only [exportNode, exportLinesN, joinLines, List.foldr_cons] at *
      rw [ih]
      try simp [String.append_assoc])
    (by intro pre; rfl)
    (by
      intro c pre ih
      simp only [exportList, exportLinesL]
      exact ih)
    (by
      intro c c2 cs pre ih1 ih2
      simp only [exportList, exportLinesL] at *
      rw [ih1, ih2, joinLines_append])

theorem exportLinesL_length : ∀ (l : List TreeNode) (pre : String),
    (exportLinesL l pre).length = listTotal l :=
  exportLinesL.induct
    (fun t pre isLast => (exportLinesN t pre isLast).length = nodeTotal t)
    (fun l pre => (exportLinesL l pre).length = listTotal l)
    (by
      intro name version ty depth purl description licenses children id pre isLast ih
      simp only [exportLinesN, nodeTotal, List.length_cons, ih]
      omega)
    (by intro pre; rfl)
    (by
      intro c pre ih
      simp only [exportLinesL, listTotal, ih]
      omega)
    (by
      intro c c2 cs pre ih1 ih2
      simp only [exportLinesL, listTotal, List.length_append, ih1, ih2])

theorem exportLinesN_length (t : TreeNode) (pre : String) (isLast : Bool) :
    (exportLinesN t pre isLast).length = nodeTotal t := by
  cases t with
  | mk name version ty depth purl description licenses children id =>
    simp only [exportLinesN, nodeTotal, List.length_cons, exportLinesL_length]
    omega

/-- C6 counterexample: on a flat one-component document the export emits
two newline-terminated lines — the first one for the synthetic root — while
the node count with the root excluded is 1, so the claimed "no root line,
line count = node count without root" semantics does not match the code. -/
theorem exportTree_root_line_cex :
    (exportTreeText (parseCycloneDX sbomFlat "prod" "2.0")).data.count '\n' = 2 ∧
    listTotal (parseCycloneDX sbomFlat "prod" "2.0").children = 1 ∧
    exportTreeText (parseCycloneDX sbomFlat "prod" "2.0") =
      "└── prod@2.0\n    └── a@1.0\n" := by decide

/-- C6 (amended): `exportTree` emits exactly one line per node of the
built tree, the synthetic root included (the root line uses the `└── `
connector with an empty prefix), so the number of emitted lines is
`1 + ` the node count below the root; the emitted text is exactly the
newline-join of those lines, each consisting of prefix, connector, name
and `@version` when the version is non-empty; the export reads neither the
expanded-node set nor the search query. -/
theorem exportTree_line_count :
    ∀ (sbom : Sbom) (productName version : String),
      exportTreeText (parseCycloneDX sbom productName version) =
        joinLines (exportLinesN (parseCycloneDX sbom productName version) "" true) ∧
      (exportLinesN (parseCycloneDX sbom productName version) "" true).length =
        1 + listTotal (parseCycloneDX sbom productName version).children := by
  intro sbom productName version
  constructor
  · cases ht : parseCycloneDX sbom productName version with
    | mk name version' ty depth purl description licenses children id =>
      simp only [exportTreeText, exportNode, exportLinesN, joinLines, List.foldr_cons]
      rw [exportList_join]
      simp [String.append_assoc, joinLines]
  · rw [exportLinesN_length]
    cases parseCycloneDX sbom productName version with
    | mk name version' ty depth purl description licenses children id =>
      simp [nodeTotal, TreeNode.children]

/-! ## C8: `matchesTreeSearch` (app.js 1399-1407) -/

/-- Character-wise lowercasing, modelling `String.prototype.toLowerCase`. -/
def strLower (s : String) : String := String.mk (s.data.map Char.toLower)

/-- Bool-valued substring containment on character lists. -/
def listSub (needle : List Char) : List Char → Bool
  | [] => needle.isEmpty
  | c :: cs => List.isPrefixOf needle (c :: cs) || listSub needle cs

/-- JavaScript `s.includes(sub)`. -/
def jsIncludes (s sub : String) : Bool := listSub sub.data s.data

theorem listSub_iff (needle : List Char) : ∀ (l : List Char),
    listSub needle l = true ↔ needle <:+: l := by
  intro l
  induction l with
  | nil =>
    simp only [listSub, List.isEmpty_iff]
    constructor
    · intro h; rw [h]
    · intro h
      simpa using List.eq_nil_of_infix_nil h
  | cons c cs ih =>
    simp [listSub, ih, List.infix_cons_iff, List.isPrefixOf_iff_prefix]

theorem jsIncludes_iff (s sub : String) :
    jsIncludes s sub = true ↔ sub.data <:+: s.data := listSub_iff _ _

/-- `matchesTreeSearch(node)` (app.js 1399-1407), with the module-level
`treeSearchQuery` (already trimmed and lowercased by `handleTreeSearch`,
app.js 1251/1267) passed explicitly.  An empty query returns `true`
immediately; otherwise `node.name.toLowerCase()` is evaluated first, which
throws a `TypeError` (modelled as `Except.error ()`) when `name` is
absent; `version` and `description` are truthiness-guarded. -/
def matchesTreeSearch (node : TreeNode) (query : String) : Except Unit Bool :=
  if query = "" then Except.ok true
  else
    match node.name with
    | none => Except.error ()
    | some nm =>
      let matchesName := jsIncludes (strLower nm) query
      let matchesVersion := node.version ≠ "" && jsIncludes (strLower node.version) query
      let matchesDescription :=
        match node.description with
        | some d => d ≠ "" && jsIncludes (strLower d) query
        | none => false
      Except.ok (matchesName || matchesVersion || matchesDescription)

/-- A node built from a component that has no `name` field but does have a
description (its raw id string prints the JavaScript `undefined`). -/
def nodeNoName : TreeNode :=
  TreeNode.mk none "1.0" "direct" 1 none (some "database util") none [] "undefined@1.0-1"

/-- C8 counterexample: on a node without a name, `matchesTreeSearch`
throws (`node.name.toLowerCase()` on `undefined`) instead of treating the
missing field as a non-match — even though the description does contain
the query, so the claimed semantics would return `true`. -/
theorem matchesTreeSearch_missing_name_cex :
    matchesTreeSearch nodeNoName "data" = Except.error () ∧
    jsIncludes (strLower "database util") "data" = true :=
  ⟨rfl, by decide⟩

/-- C8 (amended): an empty query matches every node; on a node whose
`name` is present the result is `ok`, true exactly when the
(caller-lowercased) query occurs in the lowercased name, in the lowercased
version when the version is non-empty, or in the lowercased description
when a non-empty description is present; but a node with a missing `name`
makes `matchesTreeSearch` throw for every non-empty query — the name is
not optional. -/
theorem matchesTreeSearch_spec :
    ∀ (node : TreeNode) (query : String),
      (query = "" → matchesTreeSearch node query = Except.ok true) ∧
      (query ≠ "" → node.name = none → matchesTreeSearch node query = Except.error ()) ∧
      (∀ nm, query ≠ "" → node.name = some nm →
        (matchesTreeSearch node query = Except.ok true ↔
          (query.data <:+: (strLower nm).data ∨
           (node.version ≠ "" ∧ query.data <:+: (strLower node.version).data) ∨
           (∃ d, node.description = some d ∧ d ≠ "" ∧
             query.data <:+: (strLower d).data)))) := by
  intro node query
  refine ⟨?_, ?_, ?_⟩
  · intro h
    simp [matchesTreeSearch, h]
  · intro hq hn
    simp [matchesTreeSearch, hq, hn]
  · intro nm hq hn
    simp only [matchesTreeSearch, if_neg hq, hn]
    cases hd : node.description with
    | none =>
      simp [Except.ok.injEq, Bool.or_eq_true, Bool.and_eq_true, jsIncludes_iff,
        decide_eq_true_eq, hd]
    | some d =>
      simp [Except.ok.injEq, Bool.or_eq_true, Bool.and_eq_true, jsIncludes_iff,
        decide_eq_true_eq, hd]
      exact or_assoc

/-- A concrete node whose lowercased name contains the query `"mlu"`. -/
def nodeXml : TreeNode :=
  TreeNode.mk (some "XmlUtil") "1.0" "direct" 1 none none none [] "XmlUtil@1.0-1"

theorem matchesTreeSearch_spec_witness :
    matchesTreeSearch nodeXml "mlu" = Except.ok true :=
  ((matchesTreeSearch_spec nodeXml "mlu").2.2 "XmlUtil" (by decide) rfl).mpr
    (Or.inl (by decide))

/-! ## C4: duplicate refs, C5: fallback children, C10: processed-set marking -/

/-- A document where ref `c` is reachable both through `a` and directly
from the root: `r → a, r → c` and `a → c`. -/
def sbomDup : Sbom :=
  ⟨some [⟨some "a", none, some "a", some "1.0", none, none, none⟩,
         ⟨some "c", none, some "c", some "3.0", none, none, none⟩],
   some [⟨some "r", some ["a", "c"]⟩, ⟨some "a", some ["c"]⟩],
   some ⟨some ⟨some "r", none, none, none⟩⟩⟩

/-- C4 counterexample: ref `c` is first reached below `a` (where it
expands), and when the root's own edge to `c` is processed afterwards the
ref is already in the processed set, so `buildTree` returns `null` and the
root gets no second child at all — not a childless leaf: the root has
exactly one child, named `a`. -/
theorem buildTree_duplicate_ref_cex :
    ((parseCycloneDX sbomDup "p" "v").children.map
      (fun n => (n.name, n.children.map TreeNode.name))) = [(some "a", [some "c"])] ∧
    (parseCycloneDX sbomDup "p" "v").children.length = 1 := by decide

/-- C4 (amended): within one build pass only the first-encountered
occurrence of a raw ref produces a node (and expands its `dependsOn`
children); any later occurrence of an already-processed ref produces no
node at all — the parent gets no child for that edge, rather than a
childless leaf. -/
theorem buildTree_duplicate_ref :
    ∀ (comps : List CompJson) (deps : List DepJson) (fuel : Nat) (ref : String)
      (depth maxDepth : Nat) (proc : List String),
      (proc.contains ref = true →
        buildTreeFun comps deps fuel ref depth maxDepth proc = (none, proc)) ∧
      (proc.contains ref = false → depth ≤ maxDepth →
        ∀ component, lookupComp comps ref = some component →
        buildTreeFun comps deps (fuel + 1) ref depth maxDepth proc =
          (some (TreeNode.mk component.name component.version
             (if depth = 1 then "direct" else "transitive") depth component.purl
             component.description component.licenses
             (childLoop (buildTreeFun comps deps fuel) (depsOnOf deps ref)
               (depth + 1) maxDepth (ref :: proc)).1
             (graphId component.name component.version depth)),
           (childLoop (buildTreeFun comps deps fuel) (depsOnOf deps ref)
             (depth + 1) maxDepth (ref :: proc)).2)) := by
  intro comps deps fuel ref depth maxDepth proc
  constructor
  · intro h
    cases fuel with
    | zero => rfl
    | succ fuel => rw [buildTreeFun_succ, if_pos (by rw [h, Bool.or_true])]
  · intro hm hle component hlk
    rw [buildTreeFun_succ,
      if_neg (by rw [hm, Bool.or_false]; simp only [decide_eq_true_eq]; omega), hlk]
    rfl

theorem buildTree_duplicate_ref_witness :
    (["a"] : List String).contains "a" = true ∧
    buildTreeFun compsFlat [] 5 "a" 1 10 ["a"] = (none, ["a"]) :=
  ⟨by decide, (buildTree_duplicate_ref compsFlat [] 5 "a" 1 10 ["a"]).1 (by decide)⟩

/-- C5: when the dependency-graph pass produced no children and the
document has at least one component, the built root's children are
synthesized from the first 100 components: each at depth 1, kind
`"direct"`, with an empty child list (so this path recurses into nothing
and never yields a `"transitive"` node), and there are
`min 100 (number of components)` of them. -/
theorem parseCycloneDX_fallback :
    ∀ (sbom : Sbom) (productName version : String),
      graphChildren (sbom.components.getD []) (sbom.dependencies.getD [])
        (rootRefOf sbom (sbom.components.getD []) (sbom.dependencies.getD [])) 10 = [] →
      sbom.components.getD [] ≠ [] →
      (parseCycloneDX sbom productName version).children =
        fallbackChildren (sbom.components.getD []) ∧
      (∀ n ∈ fallbackChildren (sbom.components.getD []),
         n.depth = 1 ∧ n.type = "direct" ∧ n.children = []) ∧
      (fallbackChildren (sbom.components.getD [])).length =
        min 100 (sbom.components.getD []).length := by
  intro sbom productName version hg hc
  refine ⟨?_, ?_, ?_⟩
  · have hroot : (parseCycloneDX sbom productName version).children =
        (if (graphChildren (sbom.components.getD []) (sbom.dependencies.getD [])
              (rootRefOf sbom (sbom.components.getD []) (sbom.dependencies.getD [])) 10).isEmpty
            && !(sbom.components.getD []).isEmpty
         then fallbackChildren (sbom.components.getD [])
         else graphChildren (sbom.components.getD []) (sbom.dependencies.getD [])
              (rootRefOf sbom (sbom.components.getD []) (sbom.dependencies.getD [])) 10) := rfl
    rw [hroot, hg]
    cases hcc : sbom.components.getD [] with
    | nil => exact absurd hcc hc
    | cons c cs => simp
  · intro n hn
    simp only [fallbackChildren, List.mem_map] at hn
    obtain ⟨p, _, hp⟩ := hn
    rw [← hp]
    exact ⟨rfl, rfl, rfl⟩
  · simp [fallbackChildren, List.length_take]

theorem parseCycloneDX_fallback_witness :
    (parseCycloneDX sbomFlat "p" "v").children = fallbackChildren compsFlat ∧
    (fallbackChildren compsFlat).length = min 100 compsFlat.length := by
  have h := parseCycloneDX_fallback sbomFlat "p" "v" rfl (by decide)
  exact ⟨h.1, h.2.2⟩

/-- C10: a ref reached at a depth beyond the cap is rejected before being
marked processed — the processed set is returned unchanged, so the same
ref can still be expanded later in the pass at a legal depth; by contrast
a ref that passes both guards but is missing from the component index is
marked processed even though it produces no node, and any ref already in
the processed set can never produce a node for the rest of the pass. -/
theorem buildTree_processed_marking :
    ∀ (comps : List CompJson) (deps : List DepJson) (fuel : Nat) (ref : String)
      (depth maxDepth : Nat) (proc : List String),
      (depth > maxDepth →
        buildTreeFun comps deps fuel ref depth maxDepth proc = (none, proc)) ∧
      (proc.contains ref = false → depth ≤ maxDepth → lookupComp comps ref = none →
        buildTreeFun comps deps (fuel + 1) ref depth maxDepth proc = (none, ref :: proc)) ∧
      (∀ (fuel2 depth2 : Nat) (proc2 : List String), proc2.contains ref = true →
        buildTreeFun comps deps fuel2 ref depth2 maxDepth proc2 = (none, proc2)) := by
  intro comps deps fuel ref depth maxDepth proc
  refine ⟨?_, ?_, ?_⟩
  · intro h
    cases fuel with
    | zero => rfl
    | succ fuel => rw [buildTreeFun_succ, if_pos (by simp [h])]
  · intro hm hle hlk
    rw [buildTreeFun_succ,
      if_neg (by rw [hm, Bool.or_false]; simp only [decide_eq_true_eq]; omega), hlk]
  · intro fuel2 depth2 proc2 hm
    cases fuel2 with
    | zero => rfl
    | succ fuel2 => rw [buildTreeFun_succ, if_pos (by rw [hm, Bool.or_true])]

theorem buildTree_processed_marking_witness :
    buildTreeFun compsFlat [] 4 "a" 11 10 [] = (none, []) ∧
    buildTreeFun compsFlat [] 4 "zzz" 1 10 [] = (none, ["zzz"]) ∧
    (buildTreeFun compsFlat [] 2 "a" 1 10 []).1.isSome = true := by
  refine ⟨(buildTree_processed_marking compsFlat [] 4 "a" 11 10 []).1 (by decide),
    (buildTree_processed_marking compsFlat [] 3 "zzz" 1 10 []).2.1
      (by decide) (by decide) (by decide),
    by decide⟩
